import Mathlib

/-!
Shallow embedding of `ghost.py`: a trie-based solver for the word game
Ghost.  Characters are modelled as `Nat` code points (`'a'` = 97); words
and prefixes are `List Nat`.  Python exceptions are modelled with
`Except PyError`.  The spec (§1, §7) assumes sanitized input: every
letter lies in the configured alphabet range, so `_pos` uses truncating
`Nat` subtraction where the Python `ord` difference would be negative
only for out-of-contract input.
-/

/-- Python exceptions that the module can raise. -/
inductive PyError where
  /-- `Exception("No word with prefix found")` raised while walking. -/
  | prefixNotFound : PyError
  /-- `NameError`: the loop variable `letter` is unbound after a
  zero-iteration loop yet is read in the `return` expression. -/
  | nameError : PyError
  /-- `NotImplementedError` raised by `Player.change_turn` on
  `Player.UNDETERMINED`. -/
  | notImplemented : PyError
deriving DecidableEq, Repr

/-- `class Player(Enum)`. -/
inductive Player where
  | YOU : Player
  | OTHER : Player
  | UNDETERMINED : Player
deriving DecidableEq, Repr

/-- `Player.change_turn`: raises `NotImplementedError` on
`UNDETERMINED`, otherwise swaps `YOU` and `OTHER`. -/
def Player.change_turn : Player → Except PyError Player
  | .UNDETERMINED => .error .notImplemented
  | .YOU => .ok .OTHER
  | .OTHER => .ok .YOU

/-- The opponent of a (determined) player.  This is claim-side
vocabulary for "that mover's opponent"; on the two determined players it
agrees with `change_turn`. -/
def Player.opp : Player → Player
  | .YOU => .OTHER
  | .OTHER => .YOU
  | .UNDETERMINED => .UNDETERMINED

/-- `Trie.Node`: a fixed-size list of optional children indexed by
letter offset, a `winner` label and an `ender` flag.  Fresh nodes carry
`winner = UNDETERMINED`, `ender = False`. -/
inductive Node where
  | mk : List (Option Node) → Player → Bool → Node

def Node.letters : Node → List (Option Node)
  | .mk ls _ _ => ls

def Node.winner : Node → Player
  | .mk _ w _ => w

def Node.ender : Node → Bool
  | .mk _ _ e => e

/-- `Trie.Node.__init__(rbase)`: `rbase` empty slots, undetermined
winner, not a word end. -/
def Node.new (rbase : Nat) : Node :=
  .mk (List.replicate rbase none) .UNDETERMINED false

/-- `class Trie`: alphabet parameters, whose turn it is at the root
(`first_move`), and the root node.  `refchar` stores the code point of
the reference character (`ord('a') = 97`). -/
structure Trie where
  rbase : Nat
  first_move : Bool
  refchar : Nat
  head : Node

/-- `Trie.__init__` with the source's default arguments
(`first_move=True, rbase=26, refchar='a', head=None`). -/
def Trie.new (first_move : Bool) : Trie :=
  Trie.mk 26 first_move 97 (Node.new 26)

/-- `Trie._pos`: `ord(char) - ord(self.refchar)` (truncating at zero;
the spec's sanitized-input contract keeps `char` in range). -/
def Trie._pos (t : Trie) (char : Nat) : Nat :=
  char - t.refchar

/-- `Trie._char`: `chr(pos + ord(self.refchar))`. -/
def Trie._char (t : Trie) (pos : Nat) : Nat :=
  pos + t.refchar

/-- The walk of `Trie.add_word`: descend letter by letter, breaking
early at a word end, creating missing children; then mark the node
reached as an ender and clear all of its child slots. -/
def addFrom (rbase : Nat) (pos : Nat → Nat) : Node → List Nat → Node
  | .mk ls w _, [] =>
      .mk (List.replicate ls.length none) w true
  | .mk ls w e, letter :: rest =>
      if e then
        -- `break` out of the loop, then mark and clear `curr`
        .mk (List.replicate ls.length none) w true
      else
        let child := match ls.getD (pos letter) none with
          | none => Node.new rbase
          | some c => c
        .mk (ls.set (pos letter) (some (addFrom rbase pos child rest))) w e

/-- `Trie.add_word`. -/
def Trie.add_word (t : Trie) (word : List Nat) : Trie :=
  Trie.mk t.rbase t.first_move t.refchar (addFrom t.rbase (t._pos) t.head word)

/-- The traversal loop of `find_prefix`: raises when the current node is
an ender with letters still unconsumed or the needed child is absent. -/
def walkNode (t : Trie) : Node → List Nat → Except PyError Node
  | curr, [] => .ok curr
  | curr, letter :: rest =>
      if curr.ender then .error .prefixNotFound
      else match curr.letters.getD (t._pos letter) none with
        | none => .error .prefixNotFound
        | some c => walkNode t c rest

/-- `Trie.find_prefix`.  After the loop, the source evaluates
`self.first_move != len(letter) % 2` where `letter` is the *loop
variable*: after a non-empty loop it holds the last character — a
one-character string, so `len(letter) = 1` — and after a zero-iteration
loop it is unbound, so Python raises `NameError`.  The `!=` compares the
bool `first_move` with the int `1 % 2` under Python's numeric
coercion (`True == 1`, `False == 0`). -/
def Trie.find_prefix (t : Trie) (p : List Nat) : Except PyError Trie := do
  let curr ← walkNode t t.head p
  match p.getLast? with
  | none => .error .nameError
  | some _letter =>
      .ok (Trie.mk t.rbase
        (decide ((if t.first_move then (1 : Nat) else 0) ≠ 1 % 2))
        t.refchar curr)

mutual
/-- The inner `recurse_update` of `Trie.update_winners`: label an ender
with the turn player, recurse into each child with the turn switched,
adopt the turn player as winner whenever some child's (updated) winner
equals the turn player, and finally resolve a still-undetermined winner
to the opposing player. -/
def recurse_update : Node → Player → Except PyError Node
  | .mk ls w e, turn_player => do
      let w0 := if e then turn_player else w
      let (ls', w1) ← updateChildren turn_player ls w0
      let w2 ←
        if w1 = Player.UNDETERMINED then turn_player.change_turn
        else pure w1
      pure (.mk ls' w2 e)

/-- The `for letter in curr_node.letters` loop of `recurse_update`,
threading the mutated `curr_node.winner` through the iterations. -/
def updateChildren (turn_player : Player) :
    List (Option Node) → Player → Except PyError (List (Option Node) × Player)
  | [], w => .ok ([], w)
  | none :: rest, w => do
      let (ls', w') ← updateChildren turn_player rest w
      pure (none :: ls', w')
  | some letter :: rest, w => do
      let nt ← turn_player.change_turn
      let letter' ← recurse_update letter nt
      let w1 := if letter'.winner = turn_player then turn_player else w
      let (ls', w') ← updateChildren turn_player rest w1
      pure (some letter' :: ls', w')
end

/-- `Trie.update_winners`: run `recurse_update` from the head with the
player selected by `first_move`. -/
def Trie.update_winners (t : Trie) : Except PyError Trie := do
  let h ← recurse_update t.head (if t.first_move then Player.YOU else Player.OTHER)
  pure (Trie.mk t.rbase t.first_move t.refchar h)

mutual
/-- The inner `recurse_search` of `find_a_winner`.  `rc` is
`ord(self.refchar)`, used by `self._char`. -/
def recurse_search (rc : Nat) : Node → List Nat
  | .mk ls _ _ =>
      match searchLoop rc ls 0 (-1) with
      | .inl word => word
      | .inr leaf_index =>
          if 0 ≤ leaf_index then [Int.toNat leaf_index + rc] else []

/-- The `for i, letter in enumerate(curr.letters)` loop of
`recurse_search`: `.inl word` models the early `return`, `.inr li`
models falling through with the final `leaf_index`. -/
def searchLoop (rc : Nat) : List (Option Node) → Nat → Int → List Nat ⊕ Int
  | [], _, leaf_index => .inr leaf_index
  | none :: rest, i, leaf_index => searchLoop rc rest (i + 1) leaf_index
  | some letter :: rest, i, leaf_index =>
      if letter.winner = Player.OTHER then
        searchLoop rc rest (i + 1) leaf_index
      else
        let li : Int := if letter.ender ∧ -1 ≤ leaf_index then (i : Int) else -2
        match recurse_search rc letter with
        | [] => searchLoop rc rest (i + 1) li
        | tail_word => .inl ((i + rc) :: tail_word)
end

/-- `Trie.find_a_winner`: search only when the head's winner is
`Player.YOU`, else return the empty string. -/
def Trie.find_a_winner (t : Trie) : List Nat :=
  if t.head.winner = Player.YOU then recurse_search t.refchar t.head else []

/-- The construction loop of `test`: `Trie(True)` then `add_word` each
word in order. -/
def build (words : List (List Nat)) : Trie :=
  words.foldl Trie.add_word (Trie.new true)

/-- The top-level `test(prefix, words)` query. -/
def test (p : List Nat) (words : List (List Nat)) : Except PyError (List Nat) := do
  let d := build words
  let d ← Trie.find_prefix d p
  let d ← Trie.update_winners d
  pure (Trie.find_a_winner d)

/-- Equality of `Except` results is decidable componentwise. -/
def exceptToSum {ε α : Type} : Except ε α → ε ⊕ α
  | .error e => .inl e
  | .ok a => .inr a

instance {ε α : Type} [DecidableEq ε] [DecidableEq α] : DecidableEq (Except ε α) :=
  fun a b =>
    decidable_of_iff (exceptToSum a = exceptToSum b)
      (by cases a <;> cases b <;> simp [exceptToSum])

mutual
/-- All reachable winners are `UNDETERMINED`: the state of a trie that
has been built but never labeled. -/
def freshB : Node → Bool
  | .mk ls w _ => decide (w = Player.UNDETERMINED) && freshList ls

def freshList : List (Option Node) → Bool
  | [] => true
  | none :: r => freshList r
  | some c :: r => freshB c && freshList r
end

mutual
/-- No reachable winner is `UNDETERMINED`. -/
def resolvedB : Node → Bool
  | .mk ls w _ => !(decide (w = Player.UNDETERMINED)) && resolvedList ls

def resolvedList : List (Option Node) → Bool
  | [] => true
  | none :: r => resolvedList r
  | some c :: r => resolvedB c && resolvedList r
end

mutual
/-- The pruning invariant: every reachable ender node has only empty
child slots. -/
def prunedB : Node → Bool
  | .mk ls _ e => (!e || ls.all (fun oc => oc.isNone)) && prunedList ls

def prunedList : List (Option Node) → Bool
  | [] => true
  | none :: r => prunedList r
  | some c :: r => prunedB c && prunedList r
end

/-- Some child slot is occupied. -/
def hasChild (ls : List (Option Node)) : Bool :=
  ls.any (fun oc => !oc.isNone)

mutual
/-- Every reachable node that is not an ender has at least one child
(no dead ends; true below any completed `add_word` call). -/
def noDeadEndB : Node → Bool
  | .mk ls _ e => (e || hasChild ls) && noDeadEndList ls

def noDeadEndList : List (Option Node) → Bool
  | [] => true
  | none :: r => noDeadEndList r
  | some c :: r => noDeadEndB c && noDeadEndList r
end

/-- Some existing child's winner equals `tp`. -/
def anyWinB (ls : List (Option Node)) (tp : Player) : Bool :=
  ls.any (fun oc =>
    match oc with
    | none => false
    | some c => decide (c.winner = tp))

mutual
/-- The minimax labeling, with `tp` the mover at this node: the winner
equals `tp` exactly when the node is an ender or some existing child's
winner equals `tp`, and equals `tp`'s opponent otherwise; children are
labeled with the turn switched. -/
def minimaxB : Node → Player → Bool
  | .mk ls w e, tp =>
      decide (w = (if e = true ∨ anyWinB ls tp = true then tp else tp.opp)) &&
        minimaxList ls tp.opp

def minimaxList : List (Option Node) → Player → Bool
  | [], _ => true
  | none :: r, tp => minimaxList r tp
  | some c :: r, tp => minimaxB c tp && minimaxList r tp
end

/-- Replaying a character string from a node: every step uses an
existing child slot (indexed as `find_prefix` would, by code point minus
`rc`), and every node visited — the start included — has winner
`Player.YOU`. -/
def replayYB (rc : Nat) : Node → List Nat → Bool
  | n, [] => decide (n.winner = Player.YOU)
  | n, ch :: rest =>
      decide (n.winner = Player.YOU) &&
        match n.letters.getD (ch - rc) none with
        | none => false
        | some c => replayYB rc c rest

mutual
def decEqNode : (a b : Node) → Decidable (a = b)
  | .mk l1 w1 e1, .mk l2 w2 e2 =>
      if hw : w1 = w2 then
        if he : e1 = e2 then
          match decEqLetters l1 l2 with
          | isTrue hl => isTrue (by rw [hw, he, hl])
          | isFalse hl => isFalse (fun h => by cases h; exact hl rfl)
        else isFalse (fun h => by cases h; exact he rfl)
      else isFalse (fun h => by cases h; exact hw rfl)

def decEqLetters : (a b : List (Option Node)) → Decidable (a = b)
  | [], [] => isTrue rfl
  | [], _ :: _ => isFalse (by simp)
  | _ :: _, [] => isFalse (by simp)
  | none :: r1, none :: r2 =>
      match decEqLetters r1 r2 with
      | isTrue h => isTrue (by rw [h])
      | isFalse h => isFalse (fun hh => by injection hh with _ h2; exact h h2)
  | none :: _, some _ :: _ => isFalse (by simp)
  | some _ :: _, none :: _ => isFalse (by simp)
  | some c1 :: r1, some c2 :: r2 =>
      match decEqNode c1 c2, decEqLetters r1 r2 with
      | isTrue h1, isTrue h2 => isTrue (by rw [h1, h2])
      | isFalse h1, _ =>
          isFalse (fun hh => by
            injection hh with ha _
            injection ha with hc
            exact h1 hc)
      | isTrue _, isFalse h2 =>
          isFalse (fun hh => by injection hh with _ hb; exact h2 hb)
end

instance : DecidableEq Node := decEqNode

instance : DecidableEq Trie := fun a b =>
  decidable_of_iff
    (a.rbase = b.rbase ∧ a.first_move = b.first_move ∧
      a.refchar = b.refchar ∧ a.head = b.head)
    (by cases a; cases b; simp)

theorem change_turn_ok {tp : Player} (h : tp ≠ Player.UNDETERMINED) :
    tp.change_turn = .ok tp.opp := by
  cases tp <;> simp_all [Player.change_turn, Player.opp]

theorem opp_ne_und {tp : Player} (h : tp ≠ Player.UNDETERMINED) :
    tp.opp ≠ Player.UNDETERMINED := by
  cases tp <;> simp_all [Player.opp]

theorem opp_ne_self {tp : Player} (h : tp ≠ Player.UNDETERMINED) :
    tp.opp ≠ tp := by
  cases tp <;> simp_all [Player.opp]

theorem freshList_iff (ls : List (Option Node)) :
    freshList ls = true ↔ ∀ c : Node, some c ∈ ls → freshB c = true := by
  induction ls with
  | nil => simp [freshList]
  | cons oc rest ih =>
      cases oc with
      | none => simp [freshList, ih]
      | some c =>
          simp only [freshList, Bool.and_eq_true, ih, List.mem_cons]
          constructor
          · rintro ⟨h1, h2⟩ d hd
            rcases hd with hd | hd
            · cases hd; exact h1
            · exact h2 d hd
          · intro h
            exact ⟨h c (Or.inl rfl), fun d hd => h d (Or.inr hd)⟩

theorem resolvedList_iff (ls : List (Option Node)) :
    resolvedList ls = true ↔ ∀ c : Node, some c ∈ ls → resolvedB c = true := by
  induction ls with
  | nil => simp [resolvedList]
  | cons oc rest ih =>
      cases oc with
      | none => simp [resolvedList, ih]
      | some c =>
          simp only [resolvedList, Bool.and_eq_true, ih, List.mem_cons]
          constructor
          · rintro ⟨h1, h2⟩ d hd
            rcases hd with hd | hd
            · cases hd; exact h1
            · exact h2 d hd
          · intro h
            exact ⟨h c (Or.inl rfl), fun d hd => h d (Or.inr hd)⟩

theorem prunedList_iff (ls : List (Option Node)) :
    prunedList ls = true ↔ ∀ c : Node, some c ∈ ls → prunedB c = true := by
  induction ls with
  | nil => simp [prunedList]
  | cons oc rest ih =>
      cases oc with
      | none => simp [prunedList, ih]
      | some c =>
          simp only [prunedList, Bool.and_eq_true, ih, List.mem_cons]
          constructor
          · rintro ⟨h1, h2⟩ d hd
            rcases hd with hd | hd
            · cases hd; exact h1
            · exact h2 d hd
          · intro h
            exact ⟨h c (Or.inl rfl), fun d hd => h d (Or.inr hd)⟩

theorem noDeadEndList_iff (ls : List (Option Node)) :
    noDeadEndList ls = true ↔ ∀ c : Node, some c ∈ ls → noDeadEndB c = true := by
  induction ls with
  | nil => simp [noDeadEndList]
  | cons oc rest ih =>
      cases oc with
      | none => simp [noDeadEndList, ih]
      | some c =>
          simp only [noDeadEndList, Bool.and_eq_true, ih, List.mem_cons]
          constructor
          · rintro ⟨h1, h2⟩ d hd
            rcases hd with hd | hd
            · cases hd; exact h1
            · exact h2 d hd
          · intro h
            exact ⟨h c (Or.inl rfl), fun d hd => h d (Or.inr hd)⟩

theorem minimaxList_iff (ls : List (Option Node)) (tp : Player) :
    minimaxList ls tp = true ↔ ∀ c : Node, some c ∈ ls → minimaxB c tp = true := by
  induction ls with
  | nil => simp [minimaxList]
  | cons oc rest ih =>
      cases oc with
      | none => simp [minimaxList, ih]
      | some c =>
          simp only [minimaxList, Bool.and_eq_true, ih, List.mem_cons]
          constructor
          · rintro ⟨h1, h2⟩ d hd
            rcases hd with hd | hd
            · cases hd; exact h1
            · exact h2 d hd
          · intro h
            exact ⟨h c (Or.inl rfl), fun d hd => h d (Or.inr hd)⟩

theorem anyWinB_iff (ls : List (Option Node)) (tp : Player) :
    anyWinB ls tp = true ↔ ∃ c : Node, some c ∈ ls ∧ c.winner = tp := by
  simp only [anyWinB, List.any_eq_true]
  constructor
  · rintro ⟨oc, hmem, hoc⟩
    cases oc with
    | none => simp at hoc
    | some c => exact ⟨c, hmem, by simpa using hoc⟩
  · rintro ⟨c, hmem, hc⟩
    exact ⟨some c, hmem, by simpa using hc⟩

theorem hasChild_iff (ls : List (Option Node)) :
    hasChild ls = true ↔ ∃ c : Node, some c ∈ ls := by
  simp only [hasChild, List.any_eq_true]
  constructor
  · rintro ⟨oc, hmem, hoc⟩
    cases oc with
    | none => simp at hoc
    | some c => exact ⟨c, hmem⟩
  · rintro ⟨c, hmem⟩
    exact ⟨some c, hmem, by simp⟩

theorem getD_eq_some_iff {ls : List (Option Node)} {i : Nat} {c : Node} :
    ls.getD i none = some c ↔ ls[i]? = some (some c) := by
  rw [List.getD_eq_getElem?_getD]
  rcases hj : ls[i]? with _ | v <;> simp

theorem getD_mem {ls : List (Option Node)} {i : Nat} {c : Node}
    (h : ls.getD i none = some c) : some c ∈ ls :=
  List.mem_iff_getElem?.mpr ⟨i, getD_eq_some_iff.mp h⟩
theorem bind_ok {α β : Type} (a : α) (f : α → Except PyError β) :
    (Except.ok a : Except PyError α) >>= f = f a := rfl

theorem pure_ok {α : Type} (a : α) :
    (pure a : Except PyError α) = Except.ok a := rfl

theorem update_master_aux :
    (∀ (n : Node) (tp : Player), tp ≠ Player.UNDETERMINED →
      ∃ n', recurse_update n tp = .ok n' ∧ n'.ender = n.ender ∧
        n'.letters.length = n.letters.length ∧ resolvedB n' = true ∧
        (freshB n = true → minimaxB n' tp = true)) ∧
    (∀ (tp : Player) (ls : List (Option Node)) (w : Player), tp ≠ Player.UNDETERMINED →
      ∃ ls' w', updateChildren tp ls w = .ok (ls', w') ∧
        (w' = tp ↔ (w = tp ∨ anyWinB ls' tp = true)) ∧
        (w' = w ∨ w' = tp) ∧
        ls'.length = ls.length ∧
        resolvedList ls' = true ∧
        (freshList ls = true → minimaxList ls' tp.opp = true)) := by
  apply recurse_update.mutual_induct
  · -- node case
    intro ls w e tp w0 ih htp
    have hw0 : w0 = if e = true then tp else w := rfl
    clear_value w0
    obtain ⟨ls', w1, heq, hiff, hor, hlen, hres, hmini⟩ := ih htp
    have hopp := opp_ne_und htp
    refine ⟨Node.mk ls' (if w1 = Player.UNDETERMINED then tp.opp else w1) e, ?_, rfl, ?_, ?_, ?_⟩
    · rw [hw0] at heq
      by_cases h1 : w1 = Player.UNDETERMINED
      · simp [recurse_update, heq, bind_ok, h1, change_turn_ok htp, pure_ok]
      · simp [recurse_update, heq, bind_ok, h1, pure_ok]
    · simpa [Node.letters] using hlen
    · have hw2 : (if w1 = Player.UNDETERMINED then tp.opp else w1) ≠ Player.UNDETERMINED := by
        by_cases h1 : w1 = Player.UNDETERMINED <;> simp [h1, hopp]
      simp [resolvedB, hw2, hres]
    · intro hf
      simp only [freshB, Bool.and_eq_true, decide_eq_true_eq] at hf
      obtain ⟨hwu, hfl⟩ := hf
      simp only [minimaxB, Bool.and_eq_true, decide_eq_true_eq]
      refine ⟨?_, hmini hfl⟩
      by_cases he : e = true
      · have h1 : w1 = tp := hiff.mpr (Or.inl (by rw [hw0, if_pos he]))
        have hne : w1 ≠ Player.UNDETERMINED := by rw [h1]; exact htp
        simp [hne, h1, he, htp]
      · have hw0' : w0 = w := by rw [hw0, if_neg he]
        by_cases ha : anyWinB ls' tp = true
        · have h1 : w1 = tp := hiff.mpr (Or.inr ha)
          have hne : w1 ≠ Player.UNDETERMINED := by rw [h1]; exact htp
          simp [hne, h1, he, ha, htp]
        · have h1 : w1 ≠ tp := by
            intro hc
            rcases hiff.mp hc with hc' | hc'
            · rw [hw0', hwu] at hc'; exact htp hc'.symm
            · exact ha hc'
          have h2 : w1 = Player.UNDETERMINED := by
            rcases hor with h | h
            · rw [h, hw0', hwu]
            · exact absurd h h1
          simp [h2, he, ha, htp]
  · -- nil case
    intro tp w htp
    exact ⟨[], w, by simp [updateChildren], by simp [anyWinB], Or.inl rfl, rfl,
      by simp [resolvedList], fun _ => by simp [minimaxList]⟩
  · -- none :: rest
    intro tp rest w ih htp
    obtain ⟨ls', w', heq, hiff, hor, hlen, hres, hmini⟩ := ih htp
    refine ⟨none :: ls', w', ?_, ?_, hor, by simp [hlen], ?_, ?_⟩
    · simp [updateChildren, heq, bind_ok, pure_ok]
    · simpa [anyWinB] using hiff
    · simpa [resolvedList] using hres
    · intro hf
      have := hmini (by simpa [freshList] using hf)
      simpa [minimaxList] using this
  · -- some letter :: rest
    intro tp letter rest w ih1 ih2 htp
    have hopp : tp.opp ≠ Player.UNDETERMINED := opp_ne_und htp
    obtain ⟨c', hc'eq, hc'end, hc'len, hc'res, hc'mini⟩ := ih1 tp.opp hopp
    obtain ⟨ls', w', heq, hiff, hor, hlen, hres, hmini⟩ := ih2 c' htp
    refine ⟨some c' :: ls', w', ?_, ?_, ?_, by simp [hlen], ?_, ?_⟩
    · simp [updateChildren, change_turn_ok htp, bind_ok, hc'eq, heq, pure_ok]
    · by_cases hcw : c'.winner = tp
      · rw [if_pos hcw] at hiff
        constructor
        · intro _; right
          simp [anyWinB, hcw]
        · intro _; exact hiff.mpr (Or.inl rfl)
      · rw [if_neg hcw] at hiff
        rw [hiff]
        simp [anyWinB, hcw]
    · by_cases hcw : c'.winner = tp
      · rw [if_pos hcw] at hor
        exact Or.inr (hor.elim id id)
      · rw [if_neg hcw] at hor
        exact hor
    · simp [resolvedList, hc'res, hres]
    · intro hf
      simp only [freshList, Bool.and_eq_true] at hf
      simp [minimaxList, hc'mini hf.1, hmini hf.2]

theorem update_winners_head (t t' : Trie) (h : Trie.update_winners t = .ok t') :
    ∃ n', recurse_update t.head (if t.first_move then Player.YOU else Player.OTHER) = .ok n' ∧
      t'.head = n' ∧ n'.ender = t.head.ender ∧ resolvedB n' = true ∧
      (freshB t.head = true →
        minimaxB n' (if t.first_move then Player.YOU else Player.OTHER) = true) := by
  have htp : (if t.first_move then Player.YOU else Player.OTHER) ≠ Player.UNDETERMINED := by
    by_cases hf : t.first_move <;> simp [hf]
  obtain ⟨n', heq, hend, _hlen, hres, hmini⟩ := update_master_aux.1 t.head _ htp
  refine ⟨n', heq, ?_, hend, hres, hmini⟩
  simp only [Trie.update_winners, heq, bind_ok, pure_ok] at h
  injection h with h2
  rw [← h2]

/-- **C1.** After `update_winners` runs on a never-labeled trie (every
winner still `UNDETERMINED`, as `add_word` constructs them) whose
`first_move` flag designates the mover at the root, every reachable node
carries the minimax outcome relative to the mover at that node: its
winner equals that mover exactly when the node is an ender or some
existing child's winner equals that mover, and equals the mover's
opponent otherwise (`minimaxB`). -/
theorem update_winners_minimax (t t' : Trie) (hf : freshB t.head = true)
    (h : Trie.update_winners t = .ok t') :
    minimaxB t'.head (if t.first_move then Player.YOU else Player.OTHER) = true := by
  obtain ⟨n', _, hh, _, _, hm⟩ := update_winners_head t t' h
  rw [hh]
  exact hm hf

/-- Witness for C1 on the dictionary `["ab"]`. -/
theorem update_winners_minimax_witness :
    minimaxB ((Trie.update_winners (build [[97, 98]])).toOption.getD (Trie.new true)).head
      (if (build [[97, 98]]).first_move then Player.YOU else Player.OTHER) = true :=
  update_winners_minimax (build [[97, 98]])
    ((Trie.update_winners (build [[97, 98]])).toOption.getD (Trie.new true))
    (by decide) (by decide)

/-- **C6.** After `update_winners` returns, no reachable node's winner
remains `Player.UNDETERMINED`: every reachable winner is exactly one of
`Player.YOU` or `Player.OTHER` (the `Player` type has no other value). -/
theorem update_winners_resolved (t t' : Trie) (h : Trie.update_winners t = .ok t') :
    resolvedB t'.head = true := by
  obtain ⟨n', _, hh, _, hres, _⟩ := update_winners_head t t' h
  rw [hh]
  exact hres

/-- Witness for C6 on the dictionary `["ab"]`. -/
theorem update_winners_resolved_witness :
    resolvedB ((Trie.update_winners (build [[97, 98]])).toOption.getD (Trie.new true)).head
      = true :=
  update_winners_resolved (build [[97, 98]])
    ((Trie.update_winners (build [[97, 98]])).toOption.getD (Trie.new true))
    (by decide)
theorem prunedList_replicate (k : Nat) : prunedList (List.replicate k none) = true := by
  induction k with
  | zero => simp [prunedList]
  | succ n ih => simpa [List.replicate_succ, prunedList] using ih

theorem pruned_mark (k : Nat) (w : Player) :
    prunedB (Node.mk (List.replicate k none) w true) = true := by
  simp [prunedB, prunedList_replicate, List.all_eq_true]

theorem prunedList_set (ls : List (Option Node)) (i : Nat) (c : Node)
    (hls : prunedList ls = true) (hc : prunedB c = true) :
    prunedList (ls.set i (some c)) = true := by
  rw [prunedList_iff] at hls ⊢
  intro d hd
  rcases List.mem_or_eq_of_mem_set hd with h | h
  · exact hls d h
  · injection h with h'
    rw [h']
    exact hc

theorem addFrom_pruned (rbase : Nat) (pos : Nat → Nat) :
    ∀ (word : List Nat) (n : Node), prunedB n = true →
      prunedB (addFrom rbase pos n word) = true := by
  intro word
  induction word with
  | nil =>
      intro n _
      cases n with
      | mk ls w e => simpa [addFrom] using pruned_mark ls.length w
  | cons letter rest ih =>
      intro n h
      cases n with
      | mk ls w e =>
          by_cases he : e
          · simpa [addFrom, he] using pruned_mark ls.length w
          · have hne : e = false := by simpa using he
            simp only [prunedB, hne, Bool.and_eq_true] at h
            have hls : prunedList ls = true := h.2
            rcases hg : ls.getD (pos letter) none with _ | c
            · have hrec := ih (Node.new rbase)
                (by simp [Node.new, prunedB, prunedList_replicate])
              simp only [addFrom, hne, hg]
              simp [prunedB, prunedList_set ls _ _ hls hrec]
            · have hrec := ih c ((prunedList_iff ls).mp hls c (getD_mem hg))
              simp only [addFrom, hne, hg]
              simp [prunedB, prunedList_set ls _ _ hls hrec]

/-- **C4.** For every sequence of `add_word` calls on a trie whose
reachable ender nodes all have empty child slots (in particular a fresh
trie), the resulting trie keeps that pruning invariant after each call:
no reachable node with `ender = true` has a non-empty child slot, even
when a longer word sharing that node's prefix is inserted later. -/
theorem add_word_pruned (t : Trie) (ws : List (List Nat))
    (h : prunedB t.head = true) :
    prunedB ((ws.foldl Trie.add_word t).head) = true := by
  induction ws generalizing t with
  | nil => simpa using h
  | cons word rest ih =>
      simp only [List.foldl_cons]
      exact ih (Trie.add_word t word)
        (by simpa [Trie.add_word] using addFrom_pruned t.rbase (t._pos) word t.head h)

/-- Witness for C4: inserting overlapping words `["ab", "abc", "a"]`. -/
theorem add_word_pruned_witness :
    prunedB ((([[97, 98], [97, 98, 99], [97]] : List (List Nat)).foldl
      Trie.add_word (Trie.new true)).head) = true :=
  add_word_pruned (Trie.new true) [[97, 98], [97, 98, 99], [97]] (by decide)
theorem bind_err {α β : Type} (e : PyError) (f : α → Except PyError β) :
    (Except.error e : Except PyError α) >>= f = Except.error e := rfl

/-- **C10.** `add_word ""` marks the root as an ender and empties every
child slot, discarding all previously inserted words; afterwards every
further `add_word` call leaves the trie unchanged, and `find_prefix`
fails on every non-empty prefix. -/
theorem add_empty_word (t : Trie) :
    (Trie.add_word t []).head.ender = true ∧
    (Trie.add_word t []).head.letters = List.replicate t.head.letters.length none ∧
    (∀ w : List Nat, Trie.add_word (Trie.add_word t []) w = Trie.add_word t []) ∧
    (∀ p : List Nat, p ≠ [] →
      Trie.find_prefix (Trie.add_word t []) p = .error .prefixNotFound) := by
  rcases t with ⟨rbase, fm, rc, head⟩
  rcases head with ⟨ls, w, e⟩
  refine ⟨rfl, rfl, ?_, ?_⟩
  · intro word
    cases word with
    | nil => simp [Trie.add_word, addFrom, Node.letters]
    | cons c rest => simp [Trie.add_word, addFrom, Node.letters]
  · intro p hp
    cases p with
    | nil => exact absurd rfl hp
    | cons c rest =>
        simp [ Trie.find_prefix, Trie.add_word, addFrom, walkNode, Node.ender, bind_err]

/-- Witness for C10 at a fresh trie, with the later call `add_word "ab"`
and the lookup `find_prefix "a"` instantiated concretely. -/
theorem add_empty_word_witness :
    (Trie.add_word (Trie.new true) []).head.ender = true ∧
    Trie.add_word (Trie.add_word (Trie.new true) []) [97, 98] =
      Trie.add_word (Trie.new true) [] ∧
    Trie.find_prefix (Trie.add_word (Trie.new true) []) [97] =
      .error .prefixNotFound :=
  ⟨(add_empty_word (Trie.new true)).1,
   (add_empty_word (Trie.new true)).2.2.1 [97, 98],
   (add_empty_word (Trie.new true)).2.2.2 [97] (by decide)⟩
/-- The claim's failure condition for prefix traversal: at some step the
current node is a word end with letters of the prefix still unconsumed,
or the child slot for the next letter is absent. -/
def badWalkB (pos : Nat → Nat) : Node → List Nat → Bool
  | _, [] => false
  | n, c :: rest =>
      n.ender ||
        match n.letters.getD (pos c) none with
        | none => true
        | some child => badWalkB pos child rest

theorem walkNode_spec (t : Trie) :
    ∀ (p : List Nat) (n : Node),
      (walkNode t n p = .error .prefixNotFound ↔ badWalkB (t._pos) n p = true) ∧
      (∀ e, walkNode t n p = .error e → e = .prefixNotFound) := by
  intro p
  induction p with
  | nil =>
      intro n
      constructor
      · simp [walkNode, badWalkB]
      · intro e he
        simp [walkNode] at he
  | cons c rest ih =>
      intro n
      have hwu : walkNode t n (c :: rest) =
          (if n.ender then .error .prefixNotFound
           else match n.letters.getD (t._pos c) none with
             | none => .error .prefixNotFound
             | some child => walkNode t child rest) := rfl
      have hbu : badWalkB (t._pos) n (c :: rest) =
          (n.ender ||
            match n.letters.getD (t._pos c) none with
            | none => true
            | some child => badWalkB (t._pos) child rest) := rfl
      by_cases hend : n.ender = true
      · rw [hwu, hbu, hend]
        constructor
        · simp
        · intro e he
          rw [if_pos rfl] at he
          injection he with h
          exact h.symm
      · have hend' : n.ender = false := by simpa using hend
        rw [hwu, hbu, hend']
        rcases hg : n.letters.getD (t._pos c) none with _ | child
        · constructor
          · simp
          · intro e he
            simp only [Bool.false_eq_true, if_false] at he
            injection he with h
            exact h.symm
        · constructor
          · simp only [Bool.false_eq_true, if_false, Bool.false_or]
            exact (ih child).1
          · intro e he
            simp only [Bool.false_eq_true, if_false] at he
            exact (ih child).2 e he

/-- **C8.** For every trie and every non-empty prefix over the
configured alphabet, `find_prefix` raises an error exactly when at some
step of the walk the current node is a word end with prefix letters
still unconsumed, or the child slot for the next letter is absent
(`badWalkB`); when that condition fails no error is raised and a
re-rooted trie is returned (the embedding is pure, so the original trie
value is untouched by the walk). -/
theorem find_prefix_error_iff (t : Trie) (p : List Nat) (hp : p ≠ [])
    (_hs : ∀ c ∈ p, t.refchar ≤ c ∧ c < t.refchar + t.rbase) :
    ( Trie.find_prefix t p = .error .prefixNotFound ↔
        badWalkB (t._pos) t.head p = true) ∧
    (badWalkB (t._pos) t.head p = false →
        ∃ t', Trie.find_prefix t p = .ok t') := by
  obtain ⟨l, hgl⟩ : ∃ l, p.getLast? = some l := by
    rcases hgl : p.getLast? with _ | l
    · exact absurd (by simpa using hgl) hp
    · exact ⟨l, rfl⟩
  rcases hw : walkNode t t.head p with e | n'
  · have he : e = .prefixNotFound := (walkNode_spec t p t.head).2 e hw
    subst he
    have hbad : badWalkB (t._pos) t.head p = true :=
      (walkNode_spec t p t.head).1.mp hw
    refine ⟨⟨fun _ => hbad, fun _ => ?_⟩, fun hf => ?_⟩
    · simp [ Trie.find_prefix, hw, bind_err]
    · rw [hbad] at hf
      cases hf
  · refine ⟨⟨fun hferr => ?_, fun hbad => ?_⟩, fun _ => ?_⟩
    · exfalso
      simp [ Trie.find_prefix, hw, bind_ok, hgl] at hferr
    · exfalso
      have h2 := (walkNode_spec t p t.head).1.mpr hbad
      rw [hw] at h2
      cases h2
    · exact ⟨Trie.mk t.rbase (!t.first_move) t.refchar n',
        by simp [ Trie.find_prefix, hw, bind_ok, hgl]⟩

/-- Witness for C8: dictionary `["ab"]`, prefix `"ac"` (missing child at
the second step). -/
theorem find_prefix_error_iff_witness :
    (( Trie.find_prefix (build [[97, 98]]) [97, 99] = .error .prefixNotFound) ↔
        badWalkB ((build [[97, 98]])._pos) (build [[97, 98]]).head [97, 99] = true) ∧
    (badWalkB ((build [[97, 98]])._pos) (build [[97, 98]]).head [97, 99] = false →
        ∃ t', Trie.find_prefix (build [[97, 98]]) [97, 99] = .ok t') :=
  find_prefix_error_iff (build [[97, 98]]) [97, 99] (by decide) (by decide)

/-- **C2** (code bug in the source). Line 153 computes
`self.first_move != len(letter) % 2` where `letter` is the *loop
variable* — the last character walked, a one-character string — rather
than the prefix, so `len(letter) % 2 = 1` and the flag is negated for
*every* accepted non-empty prefix.  At the even-length prefix `"ab"`
over the dictionary `["ab"]` the claim requires the flag unchanged, but
the returned trie carries the negated flag. -/
theorem find_prefix_parity_bug :
    (build [[97, 98]]).first_move = true ∧
    (( Trie.find_prefix (build [[97, 98]]) [97, 98]).map Trie.first_move) =
      .ok false := by
  decide

/-- **C9** (code bug in the source). With the empty prefix the walk loop
never runs, so the loop variable `letter` is unbound when
`len(letter)` is evaluated in the `return` expression and Python raises
`NameError`; the solver query on the empty dictionary with the empty
prefix therefore raises instead of reporting a well-defined
no-forced-win result. -/
theorem find_prefix_empty_raises :
    Trie.find_prefix (Trie.new true) [] = .error .nameError ∧
    test [] [] = .error .nameError := by
  decide

/-- **C3** (counterexample). With dictionary `["ab"]` and prefix `"a"`,
the labeled view's root winner is `Player.YOU` (the favored case), yet
`test` returns `"b"` — the bare continuation — which does not begin with
the starting prefix `"a"`. -/
theorem test_result_lacks_start :
    ((Trie.update_winners (( Trie.find_prefix (build [[97, 98]]) [97]).toOption.getD
        (Trie.new true))).toOption.getD (Trie.new true)).head.winner = Player.YOU ∧
    test [97] [[97, 98]] = .ok [98] ∧
    [98].take 1 ≠ [97] := by
  decide

/-- **C3** (amended). `test` returns exactly the continuation extracted
from the re-rooted labeled trie, with the starting prefix *not*
prepended; and when the labeled root's winner is not `Player.YOU` the
returned continuation is the empty string (no winning word). -/
theorem test_returns_continuation (p : List Nat) (ws : List (List Nat)) (t1 t2 : Trie)
    (h1 : Trie.find_prefix (build ws) p = .ok t1)
    (h2 : Trie.update_winners t1 = .ok t2) :
    test p ws = .ok (Trie.find_a_winner t2) ∧
    (t2.head.winner ≠ Player.YOU → Trie.find_a_winner t2 = []) := by
  constructor
  · simp [test, h1, h2, bind_ok, pure_ok]
  · intro hne
    simp [Trie.find_a_winner, hne]

/-- Witness for the amended C3 at dictionary `["ab"]`, prefix `"a"`. -/
theorem test_returns_continuation_witness :
    test [97] [[97, 98]] = .ok (Trie.find_a_winner
      ((Trie.update_winners (( Trie.find_prefix (build [[97, 98]]) [97]).toOption.getD
        (Trie.new true))).toOption.getD (Trie.new true))) ∧
    (((Trie.update_winners (( Trie.find_prefix (build [[97, 98]]) [97]).toOption.getD
        (Trie.new true))).toOption.getD (Trie.new true)).head.winner ≠ Player.YOU →
      Trie.find_a_winner ((Trie.update_winners (( Trie.find_prefix (build [[97, 98]])
        [97]).toOption.getD (Trie.new true))).toOption.getD (Trie.new true)) = []) :=
  test_returns_continuation [97] [[97, 98]]
    (( Trie.find_prefix (build [[97, 98]]) [97]).toOption.getD (Trie.new true))
    ((Trie.update_winners (( Trie.find_prefix (build [[97, 98]]) [97]).toOption.getD
      (Trie.new true))).toOption.getD (Trie.new true))
    (by decide) (by decide)
theorem resolved_winner_ne {n : Node} (h : resolvedB n = true) :
    n.winner ≠ Player.UNDETERMINED := by
  cases n with
  | mk ls w e =>
      simp only [resolvedB, Bool.and_eq_true, Bool.not_eq_true'] at h
      simpa [Node.winner] using h.1

theorem resolvedB_children {ls : List (Option Node)} {w : Player} {e : Bool}
    (h : resolvedB (Node.mk ls w e) = true) : resolvedList ls = true := by
  simp only [resolvedB, Bool.and_eq_true] at h
  exact h.2

theorem sizeOf_child_lt {c : Node} {ls : List (Option Node)} {w : Player} {e : Bool}
    (h : some c ∈ ls) : sizeOf c < sizeOf (Node.mk ls w e) := by
  have h1 := List.sizeOf_lt_of_mem h
  have h2 := Node.mk.sizeOf_spec ls w e
  simp at h1
  omega

theorem searchLoop_replay (rc : Nat) :
    ∀ (ls : List (Option Node)) (i : Nat) (li : Int) (P : Int → Prop),
      (∀ c : Node, some c ∈ ls → resolvedB c = true ∧
        (c.winner = Player.YOU → replayYB rc c (recurse_search rc c) = true)) →
      (0 ≤ li → P li) →
      (∀ w, searchLoop rc ls i li = .inl w →
        ∃ (j : Nat) (c : Node), ls[j]? = some (some c) ∧ c.winner = Player.YOU ∧
          recurse_search rc c ≠ [] ∧ w = (i + j + rc) :: recurse_search rc c) ∧
      (∀ li', searchLoop rc ls i li = .inr li' → 0 ≤ li' →
        P li' ∨ ∃ (j : Nat) (c : Node), ls[j]? = some (some c) ∧ c.winner = Player.YOU ∧
          c.ender = true ∧ li' = (i : Int) + (j : Int)) := by
  intro ls
  induction ls with
  | nil =>
      intro i li P hch hli
      constructor
      · intro w hw
        simp [searchLoop] at hw
      · intro li' h h0
        have heq : li = li' := by
          simpa [searchLoop] using h
        subst heq
        exact Or.inl (hli h0)
  | cons oc rest ih =>
      intro i li P hch hli
      have hlift : ∀ c : Node, some c ∈ rest → resolvedB c = true ∧
          (c.winner = Player.YOU → replayYB rc c (recurse_search rc c) = true) :=
        fun c hc => hch c (List.mem_cons_of_mem _ hc)
      rcases oc with _ | c
      · have hrest := ih (i + 1) li P hlift hli
        have hu : searchLoop rc (none :: rest) i li = searchLoop rc rest (i + 1) li := rfl
        constructor
        · intro w hw
          rw [hu] at hw
          obtain ⟨j, c, hj, hcw, hne, hweq⟩ := hrest.1 w hw
          refine ⟨j + 1, c, by rw [List.getElem?_cons_succ]; exact hj, hcw, hne, ?_⟩
          rw [hweq]
          congr 1
          omega
        · intro li' h h0
          rw [hu] at h
          rcases hrest.2 li' h h0 with hP | ⟨j, c, hj, hcw, hce, hli'⟩
          · exact Or.inl hP
          · refine Or.inr ⟨j + 1, c, by rw [List.getElem?_cons_succ]; exact hj, hcw, hce, ?_⟩
            rw [hli']
            push_cast
            ring
      · have hc0 := hch c (List.mem_cons_self _ _)
        by_cases hco : c.winner = Player.OTHER
        · -- skipped child
          have hrest := ih (i + 1) li P hlift hli
          have hu : searchLoop rc (some c :: rest) i li =
              searchLoop rc rest (i + 1) li := if_pos hco
          constructor
          · intro w hw
            rw [hu] at hw
            obtain ⟨j, c', hj, hcw, hne, hweq⟩ := hrest.1 w hw
            refine ⟨j + 1, c', by rw [List.getElem?_cons_succ]; exact hj, hcw, hne, ?_⟩
            rw [hweq]
            congr 1
            omega
          · intro li' h h0
            rw [hu] at h
            rcases hrest.2 li' h h0 with hP | ⟨j, c', hj, hcw, hce, hli'⟩
            · exact Or.inl hP
            · refine Or.inr ⟨j + 1, c', by rw [List.getElem?_cons_succ]; exact hj, hcw, hce, ?_⟩
              rw [hli']
              push_cast
              ring
        · -- eligible child: resolvedness forces winner = YOU
          have hcy : c.winner = Player.YOU := by
            rcases hcw : c.winner with _ | _ | _
            · rfl
            · exact absurd hcw hco
            · exact absurd hcw (resolved_winner_ne hc0.1)
          have hu : searchLoop rc (some c :: rest) i li =
              (match recurse_search rc c with
                | [] => searchLoop rc rest (i + 1)
                    (if c.ender = true ∧ -1 ≤ li then (i : Int) else -2)
                | tail_word => Sum.inl ((i + rc) :: tail_word)) := if_neg hco
          rcases hr : recurse_search rc c with _ | ⟨x, xs⟩
          · -- recursion found nothing below this child
            have hu2 : searchLoop rc (some c :: rest) i li = searchLoop rc rest (i + 1)
                (if c.ender = true ∧ -1 ≤ li then (i : Int) else -2) := by
              rw [hu, hr]
            have hli2 : 0 ≤ (if c.ender = true ∧ -1 ≤ li then (i : Int) else -2) →
                c.ender = true ∧ (if c.ender = true ∧ -1 ≤ li then (i : Int) else -2)
                  = (i : Int) := by
              by_cases hcond : c.ender = true ∧ -1 ≤ li
              · rw [if_pos hcond]
                exact fun _ => ⟨hcond.1, rfl⟩
              · rw [if_neg hcond]
                intro habs
                omega
            have hrest := ih (i + 1) _
              (fun y => c.ender = true ∧ y = (i : Int)) hlift hli2
            constructor
            · intro w hw
              rw [hu2] at hw
              obtain ⟨j, c', hj, hcw, hne, hweq⟩ := hrest.1 w hw
              refine ⟨j + 1, c', by rw [List.getElem?_cons_succ]; exact hj, hcw, hne, ?_⟩
              rw [hweq]
              congr 1
              omega
            · intro li' h h0
              rw [hu2] at h
              rcases hrest.2 li' h h0 with ⟨hce, hli'⟩ | ⟨j, c', hj, hcw, hce, hli'⟩
              · refine Or.inr ⟨0, c, List.getElem?_cons_zero, hcy, hce, by rw [hli']; simp⟩
              · refine Or.inr ⟨j + 1, c', by rw [List.getElem?_cons_succ]; exact hj, hcw, hce, ?_⟩
                rw [hli']
                push_cast
                ring
          · -- recursion found a winning continuation: early return
            have hu2 : searchLoop rc (some c :: rest) i li =
                Sum.inl ((i + rc) :: x :: xs) := by
              rw [hu, hr]
            constructor
            · intro w hw
              rw [hu2] at hw
              injection hw with hw'
              refine ⟨0, c, List.getElem?_cons_zero, hcy, by rw [hr]; simp, ?_⟩
              rw [← hw', hr]
              simp
            · intro li' h _
              rw [hu2] at h
              cases h

theorem recurse_search_replay (rc : Nat) :
    ∀ (n : Node), resolvedB n = true → n.winner = Player.YOU →
      replayYB rc n (recurse_search rc n) = true := by
  suffices h : ∀ (k : Nat) (n : Node), sizeOf n ≤ k → resolvedB n = true →
      n.winner = Player.YOU → replayYB rc n (recurse_search rc n) = true by
    exact fun n => h (sizeOf n) n le_rfl
  intro k
  induction k using Nat.strong_induction_on with
  | _ k IH =>
      intro n hsz hres hwin
      cases n with
      | mk ls w e =>
          have hwY : w = Player.YOU := by simpa [Node.winner] using hwin
          have hch : ∀ c : Node, some c ∈ ls → resolvedB c = true ∧
              (c.winner = Player.YOU → replayYB rc c (recurse_search rc c) = true) := by
            intro c hc
            have hres_c : resolvedB c = true :=
              (resolvedList_iff ls).mp (resolvedB_children hres) c hc
            have hlt : sizeOf c < k :=
              lt_of_lt_of_le (sizeOf_child_lt (w := w) (e := e) hc) hsz
            exact ⟨hres_c, fun hwc => IH (sizeOf c) hlt c le_rfl hres_c hwc⟩
          have hdef : recurse_search rc (Node.mk ls w e) =
              (match searchLoop rc ls 0 (-1) with
                | Sum.inl word => word
                | Sum.inr leaf_index =>
                    if 0 ≤ leaf_index then [leaf_index.toNat + rc] else []) := rfl
          have hspec := searchLoop_replay rc ls 0 (-1) (fun _ => False) hch
            (by intro hbad; exact absurd hbad (by decide))
          rcases hsl : searchLoop rc ls 0 (-1) with w' | li
          · obtain ⟨j, c, hj, hcw, hne, hweq⟩ := hspec.1 w' hsl
            have hru : recurse_search rc (Node.mk ls w e) = w' := by
              rw [hdef, hsl]
            rw [hru, hweq]
            have hgd : ls.getD ((0 + j + rc) - rc) none = some c := by
              have hx : (0 + j + rc) - rc = j := by omega
              rw [hx]
              exact getD_eq_some_iff.mpr hj
            have hrepc := (hch c (List.mem_iff_getElem?.mpr ⟨j, hj⟩)).2 hcw
            simp [replayYB, Node.winner, Node.letters, hwY, hgd, hj, hrepc]
          · by_cases hpos : (0 : Int) ≤ li
            · rcases hspec.2 li hsl hpos with hF | ⟨j, c, hj, hcw, hce, hli⟩
              · exact hF.elim
              · have hru : recurse_search rc (Node.mk ls w e) = [li.toNat + rc] := by
                  rw [hdef, hsl]
                  show (if 0 ≤ li then [li.toNat + rc] else []) = [li.toNat + rc]
                  rw [if_pos hpos]
                have hy : li.toNat = j := by omega
                rw [hru, hy]
                simp [replayYB, Node.winner, Node.letters, hwY, hj]
                exact hcw
            · have hru : recurse_search rc (Node.mk ls w e) = [] := by
                rw [hdef, hsl]
                show (if 0 ≤ li then [li.toNat + rc] else []) = []
                rw [if_neg hpos]
              rw [hru]
              simp [replayYB, Node.winner, hwY]

/-- **C7.** For every trie labeled by `update_winners` whose root winner
is `Player.YOU`, replaying the string returned by `find_a_winner`
letter-by-letter from the root (indexing child slots the way
`find_prefix` does) traverses only existing child nodes, and every node
visited along the path — the root included — has winner `Player.YOU`
(`replayYB`).  This also covers the returned string being non-empty or
empty: replay of the empty string just revisits the root. -/
theorem find_a_winner_sound (t t' : Trie) (h : Trie.update_winners t = .ok t')
    (hw : t'.head.winner = Player.YOU) :
    replayYB t'.refchar t'.head (Trie.find_a_winner t') = true := by
  have hres : resolvedB t'.head = true := by
    obtain ⟨n', _, hh, _, hres, _⟩ := update_winners_head t t' h
    rw [hh]
    exact hres
  have hmain := recurse_search_replay t'.refchar t'.head hres hw
  simpa [Trie.find_a_winner, hw] using hmain

/-- Witness for C7 at the dictionary `["ab"]` (the labeled trie's root
winner is `Player.YOU` and the extracted word is `"ab"`). -/
theorem find_a_winner_sound_witness :
    replayYB ((Trie.update_winners (build [[97, 98]])).toOption.getD (Trie.new true)).refchar
      ((Trie.update_winners (build [[97, 98]])).toOption.getD (Trie.new true)).head
      (Trie.find_a_winner ((Trie.update_winners (build [[97, 98]])).toOption.getD
        (Trie.new true))) = true :=
  find_a_winner_sound (build [[97, 98]])
    ((Trie.update_winners (build [[97, 98]])).toOption.getD (Trie.new true))
    (by decide) (by decide)
theorem minimax_resolved {n : Node} {m : Player} (hm : m = Player.YOU ∨ m = Player.OTHER)
    (h : minimaxB n m = true) : n.winner = Player.YOU ∨ n.winner = Player.OTHER := by
  cases n with
  | mk ls w e =>
      simp only [minimaxB, Bool.and_eq_true, decide_eq_true_eq] at h
      rw [Node.winner, h.1]
      rcases hm with hm | hm <;> subst hm
      · by_cases hc : (e = true ∨ anyWinB ls Player.YOU = true)
        · rw [if_pos hc]
          exact Or.inl rfl
        · rw [if_neg hc]
          exact Or.inr rfl
      · by_cases hc : (e = true ∨ anyWinB ls Player.OTHER = true)
        · rw [if_pos hc]
          exact Or.inr rfl
        · rw [if_neg hc]
          exact Or.inl rfl

theorem searchLoop_first_win (rc : Nat) :
    ∀ (ls : List (Option Node)) (i : Nat) (li : Int),
      (∀ c : Node, some c ∈ ls →
        (c.winner = Player.YOU → recurse_search rc c ≠ []) ∧
        (c.winner ≠ Player.OTHER → c.winner = Player.YOU)) →
      (∃ c : Node, some c ∈ ls ∧ c.winner = Player.YOU) →
      ∃ w, searchLoop rc ls i li = .inl w ∧ w ≠ [] := by
  intro ls
  induction ls with
  | nil =>
      intro i li _ hex
      obtain ⟨c, hc, _⟩ := hex
      simp at hc
  | cons oc rest ih =>
      intro i li hch hex
      have hlift : ∀ c : Node, some c ∈ rest →
          (c.winner = Player.YOU → recurse_search rc c ≠ []) ∧
          (c.winner ≠ Player.OTHER → c.winner = Player.YOU) :=
        fun c hc => hch c (List.mem_cons_of_mem _ hc)
      rcases oc with _ | c
      · have hu : searchLoop rc (none :: rest) i li = searchLoop rc rest (i + 1) li := rfl
        obtain ⟨c0, hc0, hw0⟩ := hex
        have hc0' : some c0 ∈ rest := by
          rcases List.mem_cons.mp hc0 with h | h
          · cases h
          · exact h
        obtain ⟨w, hsl, hne⟩ := ih (i + 1) li hlift ⟨c0, hc0', hw0⟩
        exact ⟨w, hu ▸ hsl, hne⟩
      · by_cases hco : c.winner = Player.OTHER
        · have hu : searchLoop rc (some c :: rest) i li =
              searchLoop rc rest (i + 1) li := if_pos hco
          obtain ⟨c0, hc0, hw0⟩ := hex
          have hc0' : some c0 ∈ rest := by
            rcases List.mem_cons.mp hc0 with h | h
            · injection h with h'
              rw [← h'] at hco
              exact absurd hw0 (by rw [hco]; intro hcc; cases hcc)
            · exact h
          obtain ⟨w, hsl, hne⟩ := ih (i + 1) li hlift ⟨c0, hc0', hw0⟩
          exact ⟨w, hu ▸ hsl, hne⟩
        · have hcy : c.winner = Player.YOU := (hch c (List.mem_cons_self _ _)).2 hco
          have hRne : recurse_search rc c ≠ [] := (hch c (List.mem_cons_self _ _)).1 hcy
          have hu : searchLoop rc (some c :: rest) i li =
              (match recurse_search rc c with
                | [] => searchLoop rc rest (i + 1)
                    (if c.ender = true ∧ -1 ≤ li then (i : Int) else -2)
                | tail_word => Sum.inl ((i + rc) :: tail_word)) := if_neg hco
          rcases hr : recurse_search rc c with _ | ⟨x, xs⟩
          · exact absurd hr hRne
          · refine ⟨(i + rc) :: x :: xs, ?_, by simp⟩
            rw [hu, hr]

theorem searchLoop_all_win (rc : Nat) :
    ∀ (ls : List (Option Node)) (i : Nat) (li : Int),
      (∀ c : Node, some c ∈ ls → c.winner = Player.YOU ∧
        (c.ender = false → recurse_search rc c ≠ [])) →
      -1 ≤ li →
      (hasChild ls = true ∨ 0 ≤ li) →
      (∀ w, searchLoop rc ls i li = .inl w → w ≠ []) ∧
      (∀ li', searchLoop rc ls i li = .inr li' → 0 ≤ li') := by
  intro ls
  induction ls with
  | nil =>
      intro i li _ hm1 hor
      constructor
      · intro w hw
        simp [searchLoop] at hw
      · intro li' h
        have heq : li = li' := by simpa [searchLoop] using h
        rcases hor with h1 | h1
        · simp [hasChild] at h1
        · omega
  | cons oc rest ih =>
      intro i li hch hm1 hor
      have hlift : ∀ c : Node, some c ∈ rest → c.winner = Player.YOU ∧
          (c.ender = false → recurse_search rc c ≠ []) :=
        fun c hc => hch c (List.mem_cons_of_mem _ hc)
      rcases oc with _ | c
      · have hu : searchLoop rc (none :: rest) i li = searchLoop rc rest (i + 1) li := rfl
        have hor' : hasChild rest = true ∨ 0 ≤ li := by
          rcases hor with h1 | h1
          · left
            simpa [hasChild] using h1
          · right
            exact h1
        have hrest := ih (i + 1) li hlift hm1 hor'
        exact ⟨fun w hw => hrest.1 w (hu ▸ hw), fun li' h => hrest.2 li' (hu ▸ h)⟩
      · have hcy : c.winner = Player.YOU := (hch c (List.mem_cons_self _ _)).1
        have hco : ¬c.winner = Player.OTHER := by
          rw [hcy]
          intro hcc
          cases hcc
        have hu : searchLoop rc (some c :: rest) i li =
            (match recurse_search rc c with
              | [] => searchLoop rc rest (i + 1)
                  (if c.ender = true ∧ -1 ≤ li then (i : Int) else -2)
              | tail_word => Sum.inl ((i + rc) :: tail_word)) := if_neg hco
        rcases hr : recurse_search rc c with _ | ⟨x, xs⟩
        · -- the recursive search below c found nothing
          have hce : c.ender = true := by
            by_cases hce : c.ender = true
            · exact hce
            · exact absurd hr ((hch c (List.mem_cons_self _ _)).2 (by simpa using hce))
          have hu2 : searchLoop rc (some c :: rest) i li =
              searchLoop rc rest (i + 1) (i : Int) := by
            rw [hu, hr, if_pos ⟨hce, hm1⟩]
          have hrest := ih (i + 1) (i : Int) hlift (by omega) (Or.inr (by omega))
          exact ⟨fun w hw => hrest.1 w (hu2 ▸ hw), fun li' h => hrest.2 li' (hu2 ▸ h)⟩
        · have hu2 : searchLoop rc (some c :: rest) i li =
              Sum.inl ((i + rc) :: x :: xs) := by
            rw [hu, hr]
          constructor
          · intro w hw
            rw [hu2] at hw
            injection hw with hw'
            rw [← hw']
            simp
          · intro li' h
            rw [hu2] at h
            cases h

theorem recurse_search_win_nonempty (rc : Nat) :
    ∀ (n : Node) (m : Player), (m = Player.YOU ∨ m = Player.OTHER) →
      minimaxB n m = true → noDeadEndB n = true → n.winner = Player.YOU →
      (m = Player.YOU → n.ender = false) →
      recurse_search rc n ≠ [] := by
  suffices h : ∀ (k : Nat) (n : Node) (m : Player), sizeOf n ≤ k →
      (m = Player.YOU ∨ m = Player.OTHER) →
      minimaxB n m = true → noDeadEndB n = true → n.winner = Player.YOU →
      (m = Player.YOU → n.ender = false) →
      recurse_search rc n ≠ [] by
    exact fun n m => h (sizeOf n) n m le_rfl
  intro k
  induction k using Nat.strong_induction_on with
  | _ k IH =>
      intro n m hsz hm hmini hnd hwin hend
      cases n with
      | mk ls w e =>
          have hwY : w = Player.YOU := by simpa [Node.winner] using hwin
          simp only [minimaxB, Bool.and_eq_true, decide_eq_true_eq] at hmini
          obtain ⟨hcond, hml⟩ := hmini
          simp only [noDeadEndB, Bool.and_eq_true] at hnd
          obtain ⟨hnd1, hndl⟩ := hnd
          have hdef : recurse_search rc (Node.mk ls w e) =
              (match searchLoop rc ls 0 (-1) with
                | Sum.inl word => word
                | Sum.inr leaf_index =>
                    if 0 ≤ leaf_index then [leaf_index.toNat + rc] else []) := rfl
          have hchF : ∀ c : Node, some c ∈ ls →
              minimaxB c m.opp = true ∧ noDeadEndB c = true := by
            intro c hc
            exact ⟨(minimaxList_iff ls m.opp).mp hml c hc,
              (noDeadEndList_iff ls).mp hndl c hc⟩
          rcases hm with hm | hm
          · -- the mover at this node is YOU
            subst hm
            have he : e = false := by simpa [Node.ender] using hend rfl
            have ha : anyWinB ls Player.YOU = true := by
              by_cases hcnd : (e = true ∨ anyWinB ls Player.YOU = true)
              · rcases hcnd with h1 | h1
                · rw [he] at h1
                  cases h1
                · exact h1
              · rw [if_neg hcnd] at hcond
                rw [hwY] at hcond
                cases hcond
            obtain ⟨c0, hc0m, hc0w⟩ := (anyWinB_iff ls Player.YOU).mp ha
            have hch : ∀ c : Node, some c ∈ ls →
                (c.winner = Player.YOU → recurse_search rc c ≠ []) ∧
                (c.winner ≠ Player.OTHER → c.winner = Player.YOU) := by
              intro c hc
              obtain ⟨hmc, hnc⟩ := hchF c hc
              constructor
              · intro hcw
                exact IH (sizeOf c)
                  (lt_of_lt_of_le (sizeOf_child_lt (w := w) (e := e) hc) hsz) c
                  Player.OTHER le_rfl (Or.inr rfl) hmc hnc hcw
                  (fun habs => absurd habs (by decide))
              · intro hne2
                rcases minimax_resolved (m := Player.OTHER) (Or.inr rfl) hmc with h1 | h1
                · exact h1
                · exact absurd h1 hne2
            obtain ⟨w', hsl, hne⟩ := searchLoop_first_win rc ls 0 (-1) hch ⟨c0, hc0m, hc0w⟩
            rw [hdef, hsl]
            exact hne
          · -- the mover at this node is OTHER
            subst hm
            have hcnd : ¬(e = true ∨ anyWinB ls Player.OTHER = true) := by
              intro hcnd
              rw [if_pos hcnd] at hcond
              rw [hwY] at hcond
              exact Player.noConfusion hcond
            push_neg at hcnd
            obtain ⟨he', ha⟩ := hcnd
            have he : e = false := by simpa using he'
            have haf : anyWinB ls Player.OTHER = false := by simpa using ha
            have hhc : hasChild ls = true := by
              rw [he] at hnd1
              simpa using hnd1
            have hch : ∀ c : Node, some c ∈ ls → c.winner = Player.YOU ∧
                (c.ender = false → recurse_search rc c ≠ []) := by
              intro c hc
              obtain ⟨hmc, hnc⟩ := hchF c hc
              have hcwY : c.winner = Player.YOU := by
                rcases minimax_resolved (m := Player.YOU) (Or.inl rfl) hmc with h1 | h1
                · exact h1
                · exfalso
                  have hcontra : anyWinB ls Player.OTHER = true :=
                    (anyWinB_iff _ _).mpr ⟨c, hc, h1⟩
                  rw [hcontra] at haf
                  cases haf
              refine ⟨hcwY, fun hcend => ?_⟩
              exact IH (sizeOf c)
                (lt_of_lt_of_le (sizeOf_child_lt (w := w) (e := e) hc) hsz) c
                Player.YOU le_rfl (Or.inl rfl) hmc hnc hcwY (fun _ => hcend)
            have hloop := searchLoop_all_win rc ls 0 (-1) hch (by omega) (Or.inl hhc)
            rcases hsl : searchLoop rc ls 0 (-1) with w' | li
            · rw [hdef, hsl]
              exact hloop.1 w' hsl
            · have hpos := hloop.2 li hsl
              rw [hdef, hsl]
              show (if 0 ≤ li then [li.toNat + rc] else []) ≠ []
              rw [if_pos hpos]
              simp

/-- **C5** (counterexample). A trie built by one `add_word` call — on
the empty word — and labeled by `update_winners` has root winner
`Player.YOU` (the root is an ender, and the mover there wins), yet
`find_a_winner` returns the empty string: the claim's unreachability
assertion fails. -/
theorem find_a_winner_empty_despite_win :
    (Trie.update_winners (build [[]])).toOption.isSome = true ∧
    ((Trie.update_winners (build [[]])).toOption.getD (Trie.new true)).head.winner
      = Player.YOU ∧
    Trie.find_a_winner ((Trie.update_winners (build [[]])).toOption.getD
      (Trie.new true)) = [] := by
  decide

/-- **C5** (amended). For every never-labeled trie taken through
`update_winners`, if the labeled root's winner is `Player.YOU`, the root
is not itself a word end, and every reachable non-ender node has at
least one child (true for any trie holding at least one completed
non-empty word), then `find_a_winner` returns a non-empty string. -/
theorem find_a_winner_nonempty (t t' : Trie)
    (hf : freshB t.head = true)
    (h : Trie.update_winners t = .ok t')
    (hnd : noDeadEndB t'.head = true)
    (he : t'.head.ender = false)
    (hw : t'.head.winner = Player.YOU) :
    Trie.find_a_winner t' ≠ [] := by
  obtain ⟨n', _, hh, _, _, hmini⟩ := update_winners_head t t' h
  have hm : ((if t.first_move then Player.YOU else Player.OTHER) = Player.YOU ∨
      (if t.first_move then Player.YOU else Player.OTHER) = Player.OTHER) := by
    by_cases hfm : t.first_move <;> simp [hfm]
  have hne := recurse_search_win_nonempty t'.refchar t'.head
    (if t.first_move then Player.YOU else Player.OTHER) hm
    (by rw [hh]; exact hmini hf) hnd hw (fun _ => he)
  simpa [Trie.find_a_winner, hw] using hne

/-- Witness for the amended C5 at the dictionary `["ab"]`. -/
theorem find_a_winner_nonempty_witness :
    Trie.find_a_winner ((Trie.update_winners (build [[97, 98]])).toOption.getD
      (Trie.new true)) ≠ [] :=
  find_a_winner_nonempty (build [[97, 98]])
    ((Trie.update_winners (build [[97, 98]])).toOption.getD (Trie.new true))
    (by decide) (by decide) (by decide) (by decide) (by decide)
